import Mathlib

/-!
Shallow embedding of `jpeg_tomogram.py` (JPEG Tomogram v1.0.2) and proofs
about its container format, normalization pipeline, unpack path, batch
driver and output-path derivation.

Modelling conventions:
* A byte stream is a `List ℕ` whose elements are intended to be `< 256`.
* Python `f.read(n)` on a stream at position `p` returns `(bs.drop p).take n`;
  at end of file it returns fewer than `n` bytes (possibly none), exactly as
  `List.take` does.
* `int.from_bytes(b, 'little')` is `fromBytesLE` (defined for byte strings of
  any length, `from_bytes(b'') = 0`); `n.to_bytes(4, 'little')` is
  `leBytes4 n`, which in Python raises `OverflowError` for `n ≥ 2^32` —
  theorems about code paths that execute `to_bytes` carry that bound as a
  hypothesis.
* float32 arithmetic is modelled with exact rationals in the non-degenerate
  regime, and with `FV` (rationals extended with the IEEE specials NaN and
  ±Inf) for the degenerate zero-variance analysis of the normalization.
* `np.std(data)` is the nonnegative square root of the variance; ℚ has no
  square roots, so the normalization embedding takes `σ` as a parameter
  constrained in each theorem by `0 ≤ σ` and `σ * σ = varQ v`.
-/

namespace JpegTomogram

/-- `n.to_bytes(4, 'little')`: the four little-endian bytes of `n`.
Python raises `OverflowError` when `n ≥ 2^32`; theorems carry that bound. -/
def leBytes4 (n : ℕ) : List ℕ :=
  [n % 256, n / 256 % 256, n / 256 ^ 2 % 256, n / 256 ^ 3 % 256]

/-- `int.from_bytes(bs, 'little')` for a byte string of any length
(`from_bytes(b'')` is `0`). -/
def fromBytesLE (bs : List ℕ) : ℕ := bs.foldr (fun b acc => b + 256 * acc) 0

/-- A compressed slice payload: an opaque byte buffer. -/
abbrev Payload := List ℕ

/-- A length-framed record: 4-byte little-endian length followed by the bytes.
This framing appears twice in the source: `save_image` (lines 86-90) writes
`len(img_data).to_bytes(4,'little')` then `img_data` into each temporary
file, and the container writer (lines 195-198) writes
`len(img_data).to_bytes(4,'little')` then the bytes of each temporary file. -/
def frameBytes (p : Payload) : List ℕ := leBytes4 p.length ++ p

/-- The container writer, `mrc_to_jpeg_stack` lines 191-198: a 4-byte
little-endian count of payloads, then each payload framed by its 4-byte
little-endian length, in order. -/
def writeContainerBytes (ps : List Payload) : List ℕ :=
  leBytes4 ps.length ++ (ps.map frameBytes).flatten

/-- The reader loop of `jpeg_stack_to_mrc` (lines 241-246): for each of the
`count` iterations, read 4 bytes as a length `sz`, then read up to `sz`
payload bytes. Short reads at end of file return fewer bytes, exactly as in
Python; the loop never fails. -/
def readPayloads : ℕ → List ℕ → List Payload
  | 0, _ => []
  | k + 1, bs =>
    (((bs.drop 4).take (fromBytesLE (bs.take 4)))) ::
      readPayloads k ((bs.drop 4).drop (fromBytesLE (bs.take 4)))

/-- The container reader, `jpeg_stack_to_mrc` lines 238-246: read the 4-byte
little-endian payload count `num_images`, then run the reader loop. -/
def readContainerBytes (bs : List ℕ) : List Payload :=
  readPayloads (fromBytesLE (bs.take 4)) (bs.drop 4)

lemma leBytes4_length (n : ℕ) : (leBytes4 n).length = 4 := rfl

lemma fromBytesLE_leBytes4 (n : ℕ) (h : n < 2 ^ 32) :
    fromBytesLE (leBytes4 n) = n := by
  simp only [fromBytesLE, leBytes4, List.foldr]
  omega

lemma take4_leBytes4_append (n : ℕ) (l : List ℕ) :
    (leBytes4 n ++ l).take 4 = leBytes4 n :=
  List.take_left' (leBytes4_length n)

lemma drop4_leBytes4_append (n : ℕ) (l : List ℕ) :
    (leBytes4 n ++ l).drop 4 = l :=
  List.drop_left' (leBytes4_length n)

/-- Reading `ps.length` frames from the concatenation of the frames of `ps`
recovers `ps`, provided every length fits in the 4-byte field. -/
lemma readPayloads_roundtrip (ps : List Payload)
    (hl : ∀ p ∈ ps, p.length < 2 ^ 32) :
    readPayloads ps.length ((ps.map frameBytes).flatten) = ps := by
  induction ps with
  | nil => rfl
  | cons p t ih =>
    have hp : p.length < 2 ^ 32 := hl p (List.mem_cons_self p t)
    have ht : ∀ q ∈ t, q.length < 2 ^ 32 := fun q hq => hl q (List.mem_cons_of_mem p hq)
    simp only [List.map_cons, List.flatten_cons, List.length_cons, readPayloads,
      frameBytes, List.append_assoc]
    rw [take4_leBytes4_append, drop4_leBytes4_append, fromBytesLE_leBytes4 _ hp,
      List.take_left, List.drop_left]
    rw [ih ht]

/-- Round-trip of the container codec, shared between the claims about the
framing layer and about payload ordering. -/
lemma writeContainerBytes_roundtrip (ps : List Payload) (hc : ps.length < 2 ^ 32)
    (hl : ∀ p ∈ ps, p.length < 2 ^ 32) :
    readContainerBytes (writeContainerBytes ps) = ps := by
  unfold readContainerBytes writeContainerBytes
  rw [take4_leBytes4_append, drop4_leBytes4_append, fromBytesLE_leBytes4 _ hc]
  exact readPayloads_roundtrip ps hl

/-- C2: container round-trip. Writing any finite sequence of payload byte
buffers with the container codec (4-byte little-endian count, then per
payload a 4-byte little-endian length followed by the payload bytes) and
reading the result back yields exactly the same sequence of buffers in the
same order. The hypotheses are the `int.to_bytes(4, 'little')` overflow
bounds under which the Python writer executes at all. -/
theorem c2_container_roundtrip (ps : List Payload) (hc : ps.length < 2 ^ 32)
    (hl : ∀ p ∈ ps, p.length < 2 ^ 32) :
    readContainerBytes (writeContainerBytes ps) = ps :=
  writeContainerBytes_roundtrip ps hc hl

/-- Witness for C2 at a concrete payload sequence. -/
theorem c2_container_roundtrip_witness :
    ([[1, 2, 3], [], [255]] : List Payload).length < 2 ^ 32 ∧
      (∀ p ∈ ([[1, 2, 3], [], [255]] : List Payload), p.length < 2 ^ 32) ∧
      readContainerBytes (writeContainerBytes [[1, 2, 3], [], [255]]) =
        [[1, 2, 3], [], [255]] :=
  ⟨by decide, by decide,
    c2_container_roundtrip [[1, 2, 3], [], [255]] (by decide) (by decide)⟩

lemma readPayloads_length (k : ℕ) (bs : List ℕ) :
    (readPayloads k bs).length = k := by
  induction k generalizing bs with
  | zero => rfl
  | succ n ih => simp [readPayloads, ih]

/-- C4 (amended): the unpack read path performs no consistency validation.
For any container byte stream whatsoever — truncated, malformed, or with
length fields inconsistent with the remaining bytes — the reader returns
exactly the declared count of payloads, with short reads at end of file
silently yielding truncated or empty payloads. It signals no error of any
kind (the embedded reader is a total function, as the Python loop contains
no check: `f.read` simply returns fewer bytes at EOF). -/
theorem c4_read_never_fails (bs : List ℕ) :
    (readContainerBytes bs).length = fromBytesLE (bs.take 4) :=
  readPayloads_length _ _

/-- C4 counterexample: a container declaring 2 payloads whose first length
field claims 3 bytes while only 2 remain. The claim says the read path must
fail with a format/corruption error; instead the reader silently returns a
partial result: a 2-byte first payload (despite its declared length 3) and
an empty second payload. -/
theorem c4_counterexample :
    readContainerBytes (leBytes4 2 ++ (leBytes4 3 ++ [10, 20])) = [[10, 20], []] ∧
      fromBytesLE (((leBytes4 2 ++ (leBytes4 3 ++ [10, 20])).drop 4).take 4) = 3 ∧
      ([10, 20] : List ℕ).length ≠ 3 := by
  decide

/-- A depth slice of a volume, flattened to a list of float samples
(the 2D layout within a slice does not affect any claim). -/
abbrev Slice := List ℚ

/-- The byte content of the temporary file `{i}.jpg` written by `save_image`
(lines 86-90) for one slice: the JPEG encoder output `enc s` (the external
PIL codec, taken as an opaque parameter) framed by its 4-byte little-endian
length. This is exactly what the container writer later reads back whole
(line 196), so it is the per-slice payload of the container. -/
def saveImageBytes (enc : Slice → Payload) (s : Slice) : Payload :=
  frameBytes (enc s)

/-- The per-slice tasks dispatched to the worker pool (lines 180-189):
`save_args = [(slice i, tmpdir/{i}.jpg, quality)]` built by `enumerate(data)`.
Each task is the pair (file index, file content it will write). -/
def packTasks (enc : Slice → Payload) (vol : List Slice) : List (ℕ × Payload) :=
  vol.enum.map (fun t => (t.1, saveImageBytes enc t.2))

/-- One task writing its file into the temporary directory. -/
def fsUpdate (fs : ℕ → Option Payload) (t : ℕ × Payload) : ℕ → Option Payload :=
  fun j => if j = t.1 then some t.2 else fs j

/-- The temporary directory after all tasks have run, in whatever order the
worker pool happened to schedule them: each task writes its own file. -/
def writeFiles (ts : List (ℕ × Payload)) : ℕ → Option Payload :=
  ts.foldl fsUpdate (fun _ => none)

/-- The container write loop of `mrc_to_jpeg_stack` (lines 191-198) on top of
the temporary directory: write `len(data)` as the count, then for
`i in range(len(data))` read the whole file `{i}.jpg` and write its framed
bytes. (`getD []` stands for the `open(...)` of a temporary file; the
theorems below establish that under a completed pool run every file
`i < n` is present, so the default is never taken.) -/
def packContainerBytes (n : ℕ) (fs : ℕ → Option Payload) : List ℕ :=
  writeContainerBytes ((List.range n).map (fun i => (fs i).getD []))

lemma foldl_fsUpdate_of_not_mem (ts : List (ℕ × Payload))
    (f0 : ℕ → Option Payload) (k : ℕ) (hk : ∀ t ∈ ts, t.1 ≠ k) :
    (ts.foldl fsUpdate f0) k = f0 k := by
  induction ts generalizing f0 with
  | nil => rfl
  | cons t rest ih =>
    rw [List.foldl_cons, ih _ (fun u hu => hk u (List.mem_cons_of_mem t hu))]
    simp only [fsUpdate]
    rw [if_neg (fun h => hk t (List.mem_cons_self t rest) h.symm)]

lemma foldl_fsUpdate_of_mem (ts : List (ℕ × Payload)) (f0 : ℕ → Option Payload)
    (k : ℕ) (p : Payload) (hmem : (k, p) ∈ ts)
    (hnd : (ts.map Prod.fst).Nodup) :
    (ts.foldl fsUpdate f0) k = some p := by
  induction ts generalizing f0 with
  | nil => exact absurd hmem (List.not_mem_nil _)
  | cons t rest ih =>
    rw [List.map_cons, List.nodup_cons] at hnd
    rcases List.mem_cons.mp hmem with h | h
    · rw [List.foldl_cons, foldl_fsUpdate_of_not_mem rest _ k ?_]
      · simp [fsUpdate, ← h]
      · intro u hu he
        have h1 : u.1 ∈ rest.map Prod.fst := List.mem_map_of_mem Prod.fst hu
        rw [he] at h1
        have h2 : t.1 = k := (congrArg Prod.fst h).symm
        exact absurd h1 (h2 ▸ hnd.1)
    · rw [List.foldl_cons]
      exact ih _ h hnd.2

lemma packTasks_map_fst (enc : Slice → Payload) (vol : List Slice) :
    (packTasks enc vol).map Prod.fst = List.range vol.length := by
  simp only [packTasks, List.map_map]
  have : (Prod.fst ∘ fun t : ℕ × Slice => (t.1, saveImageBytes enc t.2)) =
      Prod.fst := rfl
  rw [this, List.enum_map_fst]

/-- After any complete pool run — the tasks executed in an arbitrary order
`ts'` that is a permutation of the dispatched task list — the temporary
directory holds, at each index `k`, the `save_image` output for slice `k`. -/
lemma writeFiles_perm_packTasks (enc : Slice → Payload) (vol : List Slice)
    (ts' : List (ℕ × Payload)) (hperm : ts'.Perm (packTasks enc vol))
    (k : ℕ) (hk : k < vol.length) :
    writeFiles ts' k = some (saveImageBytes enc vol[k]) := by
  apply foldl_fsUpdate_of_mem
  · apply hperm.mem_iff.mpr
    have hmem : (k, vol[k]) ∈ vol.enum := by
      have h1 : k < vol.enum.length := by rw [List.enum_length]; exact hk
      have h2 : vol.enum[k] = (k, vol[k]) := List.getElem_enum vol k h1
      exact h2 ▸ List.getElem_mem h1
    exact List.mem_map_of_mem _ hmem
  · have hp : (ts'.map Prod.fst).Perm ((packTasks enc vol).map Prod.fst) :=
      hperm.map Prod.fst
    rw [hp.nodup_iff, packTasks_map_fst]
    exact List.nodup_range _

/-- The bytes the pack pipeline writes are exactly the container-codec bytes
of the ordered payload list, independent of pool scheduling order. -/
lemma packContainerBytes_eq (enc : Slice → Payload) (vol : List Slice)
    (ts' : List (ℕ × Payload)) (hperm : ts'.Perm (packTasks enc vol)) :
    packContainerBytes vol.length (writeFiles ts') =
      writeContainerBytes (vol.map (saveImageBytes enc)) := by
  unfold packContainerBytes
  congr 1
  apply List.ext_getElem
  · simp
  · intro i h1 h2
    simp only [List.getElem_map, List.getElem_range]
    rw [writeFiles_perm_packTasks enc vol ts' hperm i (by simpa using h2)]
    rfl

/-- C6: container layout. For any slice encoder, any volume and any pool
scheduling order, the file emitted by pack is exactly a 4-byte little-endian
slice count followed by, for each payload in source order, a 4-byte
little-endian byte length and then the payload bytes — nothing else, so no
checksum and no other per-slice metadata — and the recorded count (the
little-endian value of the first 4 bytes) equals the number of payloads
actually written. -/
theorem c6_container_layout (enc : Slice → Payload) (vol : List Slice)
    (ts' : List (ℕ × Payload)) (hperm : ts'.Perm (packTasks enc vol))
    (hn : vol.length < 2 ^ 32) :
    packContainerBytes vol.length (writeFiles ts') =
      leBytes4 vol.length ++
        ((vol.map (saveImageBytes enc)).map frameBytes).flatten ∧
    fromBytesLE ((packContainerBytes vol.length (writeFiles ts')).take 4) =
      (vol.map (saveImageBytes enc)).length := by
  rw [packContainerBytes_eq enc vol ts' hperm]
  constructor
  · unfold writeContainerBytes
    rw [List.length_map]
  · unfold writeContainerBytes
    rw [take4_leBytes4_append, List.length_map, fromBytesLE_leBytes4 _ hn]

/-- A concrete two-slice volume and a concrete (constant) encoder used by the
witnesses for the ordering claims. -/
def volA : List Slice := [[0], [1, 2]]

/-- A concrete encoder standing in for the external JPEG codec in witnesses. -/
def encA : Slice → Payload := fun s => 9 :: s.map (fun _ => 1)

/-- Witness for C6: the reversed task list (workers finishing in reverse
order) still yields the canonical layout. -/
theorem c6_container_layout_witness :
    ((packTasks encA volA).reverse).Perm (packTasks encA volA) ∧
      volA.length < 2 ^ 32 ∧
      (packContainerBytes volA.length (writeFiles (packTasks encA volA).reverse) =
          leBytes4 volA.length ++
            ((volA.map (saveImageBytes encA)).map frameBytes).flatten ∧
        fromBytesLE ((packContainerBytes volA.length
            (writeFiles (packTasks encA volA).reverse)).take 4) =
          (volA.map (saveImageBytes encA)).length) :=
  ⟨List.reverse_perm _, by decide,
    c6_container_layout encA volA _ (List.reverse_perm _) (by decide)⟩

/-- C3: slice order invariant. For any volume with depth > 1, any pool
scheduling order (any permutation of the dispatched tasks — the serial path
is the identity permutation) and any slice index `k`, the `k`-th payload of
the container produced by pack is the `save_image` encoding of the `k`-th
depth slice of the source volume. -/
theorem c3_payload_order (enc : Slice → Payload) (vol : List Slice)
    (ts' : List (ℕ × Payload)) (k : ℕ) (hperm : ts'.Perm (packTasks enc vol))
    (_hdepth : 1 < vol.length) (hk : k < vol.length) (hn : vol.length < 2 ^ 32)
    (hl : ∀ s ∈ vol, (saveImageBytes enc s).length < 2 ^ 32) :
    (readContainerBytes (packContainerBytes vol.length (writeFiles ts')))[k]? =
      some (saveImageBytes enc vol[k]) := by
  rw [packContainerBytes_eq enc vol ts' hperm,
    writeContainerBytes_roundtrip (vol.map (saveImageBytes enc))
      (by rw [List.length_map]; exact hn)
      (by intro p hp
          rcases List.mem_map.mp hp with ⟨s, hs, rfl⟩
          exact hl s hs)]
  rw [List.getElem?_map, List.getElem?_eq_getElem hk]
  rfl

/-- Witness for C3: with the reversed task order, payload 1 of the container
is the encoding of slice 1. -/
theorem c3_payload_order_witness :
    ((packTasks encA volA).reverse).Perm (packTasks encA volA) ∧
      1 < volA.length ∧ volA.length < 2 ^ 32 ∧
      (∀ s ∈ volA, (saveImageBytes encA s).length < 2 ^ 32) ∧
      (readContainerBytes (packContainerBytes volA.length
          (writeFiles (packTasks encA volA).reverse)))[1]? =
        some (saveImageBytes encA volA[1]) :=
  ⟨List.reverse_perm _, by decide, by decide, by decide,
    c3_payload_order encA volA _ 1 (List.reverse_perm _) (by decide) (by decide)
      (by decide) (by decide)⟩

/-- A volume's sample grid: an ordered list of depth slices. -/
abbrev Volume := List Slice

/-- `np.mean(data)`: the sum of all samples over the number of samples,
computed over the whole 3D volume at once (line 164). (In ℚ the empty-volume
value is `0/0 = 0`; numpy would emit NaN — no claim touches empty volumes.) -/
def meanQ (v : Volume) : ℚ := v.flatten.sum / (v.flatten.length : ℚ)

/-- The variance, `np.std(data) ** 2`: mean of the squared deviations from
`meanQ`, again over the whole volume at once (line 165). -/
def varQ (v : Volume) : ℚ :=
  ((v.flatten.map (fun x => (x - meanQ v) ^ 2)).sum) / (v.flatten.length : ℚ)

/-- `np.min` of a flattened nonempty array (`0` for the empty array, where
numpy raises; never reached by the theorems). -/
def vmin : List ℚ → ℚ
  | [] => 0
  | x :: xs => xs.foldl min x

/-- `np.max` of a flattened nonempty array (`0` for the empty array, where
numpy raises; never reached by the theorems). -/
def vmax : List ℚ → ℚ
  | [] => 0
  | x :: xs => xs.foldl max x

/-- Truncation toward zero, the float→integer part of a C cast. -/
def truncQ (q : ℚ) : ℤ := if 0 ≤ q then ⌊q⌋ else -⌊-q⌋

/-- `astype(np.uint8)` on a float value: truncate toward zero, reduce mod
2^8. (For values outside [0, 2^8) the float→uint8 cast is platform-defined;
the mod-2^8 choice is immaterial because every proved regime stays inside
[0, 255].) -/
def astypeUint8 (q : ℚ) : ℤ := truncQ q % 256

/-- Line 166: `data = (data - mean) / std`, with `std` passed as the
parameter `σ` (see the header note on square roots). -/
def zData (σ : ℚ) (v : Volume) : Volume :=
  v.map (fun s => s.map (fun x => (x - meanQ v) / σ))

/-- Line 167: `data = data - np.min(data)`. -/
def shiftData (σ : ℚ) (v : Volume) : Volume :=
  (zData σ v).map (fun s => s.map (fun x => x - vmin (zData σ v).flatten))

/-- Line 168: `data = data / np.max(data)`. -/
def scaleData (σ : ℚ) (v : Volume) : Volume :=
  (shiftData σ v).map (fun s => s.map (fun x => x / vmax (shiftData σ v).flatten))

/-- Lines 162-169 of `mrc_to_jpeg_stack`: the volume→uint8 normalization,
`data = (data * 255).astype(np.uint8)` applied to the scaled data. -/
def mrcNormalize (σ : ℚ) (v : Volume) : List (List ℤ) :=
  (scaleData σ v).map (fun s => s.map (fun x => astypeUint8 (x * 255)))

/-- The z-score of one sample under the volume-global statistics. -/
def zOf (σ : ℚ) (v : Volume) (x : ℚ) : ℚ := (x - meanQ v) / σ

/-- Global minimum of the z-scores of the whole volume. -/
def zminOf (σ : ℚ) (v : Volume) : ℚ := vmin (v.flatten.map (zOf σ v))

/-- Global maximum of the z-scores of the whole volume. -/
def zmaxOf (σ : ℚ) (v : Volume) : ℚ := vmax (v.flatten.map (zOf σ v))

/-- The normalization pipeline fused into one per-sample map (what the four
staged array operations compute for each voxel). -/
def normPoint (σ : ℚ) (v : Volume) (x : ℚ) : ℤ :=
  astypeUint8 ((zOf σ v x - zminOf σ v) / (zmaxOf σ v - zminOf σ v) * 255)

lemma flatten_map_map {α β : Type} (f : α → β) (v : List (List α)) :
    (v.map (fun s => s.map f)).flatten = v.flatten.map f := by
  induction v with
  | nil => rfl
  | cons s t ih =>
    simp only [List.map_cons, List.flatten_cons, List.map_append, ih]

lemma foldl_max_sub (c : ℚ) (xs : List ℚ) :
    ∀ a, (xs.map (fun x => x - c)).foldl max (a - c) = xs.foldl max a - c := by
  induction xs with
  | nil => intro a; rfl
  | cons b t ih =>
    intro a
    simp only [List.map_cons, List.foldl_cons, max_sub_sub_right]
    exact ih (max a b)

lemma vmax_map_sub (c : ℚ) (l : List ℚ) (h : l ≠ []) :
    vmax (l.map (fun x => x - c)) = vmax l - c := by
  cases l with
  | nil => exact absurd rfl h
  | cons x xs => exact foldl_max_sub c xs x

lemma foldl_min_le_init (xs : List ℚ) (a : ℚ) : xs.foldl min a ≤ a := by
  induction xs generalizing a with
  | nil => exact le_refl a
  | cons b t ih => exact le_trans (ih (min a b)) (min_le_left a b)

lemma foldl_max_init_le (xs : List ℚ) (a : ℚ) : a ≤ xs.foldl max a := by
  induction xs generalizing a with
  | nil => exact le_refl a
  | cons b t ih => exact le_trans (le_max_left a b) (ih (max a b))

lemma foldl_min_le_mem (xs : List ℚ) (a x : ℚ) (hx : x ∈ xs) :
    xs.foldl min a ≤ x := by
  induction xs generalizing a with
  | nil => cases hx
  | cons b t ih =>
    rcases List.mem_cons.mp hx with rfl | h
    · exact le_trans (foldl_min_le_init t (min a x)) (min_le_right a x)
    · exact ih _ h

lemma foldl_max_mem_le (xs : List ℚ) (a x : ℚ) (hx : x ∈ xs) :
    x ≤ xs.foldl max a := by
  induction xs generalizing a with
  | nil => cases hx
  | cons b t ih =>
    rcases List.mem_cons.mp hx with rfl | h
    · exact le_trans (le_max_right a x) (foldl_max_init_le t (max a x))
    · exact ih _ h

lemma vmin_le_of_mem {l : List ℚ} {x : ℚ} (hx : x ∈ l) : vmin l ≤ x := by
  cases l with
  | nil => cases hx
  | cons a xs =>
    rcases List.mem_cons.mp hx with rfl | h
    · exact foldl_min_le_init xs x
    · exact foldl_min_le_mem xs a x h

lemma le_vmax_of_mem {l : List ℚ} {x : ℚ} (hx : x ∈ l) : x ≤ vmax l := by
  cases l with
  | nil => cases hx
  | cons a xs =>
    rcases List.mem_cons.mp hx with rfl | h
    · exact foldl_max_init_le xs x
    · exact foldl_max_mem_le xs a x h

lemma flatten_ne_nil_of_var_pos {v : Volume} (h : 0 < varQ v) :
    v.flatten ≠ [] := by
  intro he
  rw [varQ, he] at h
  simp at h

lemma sigma_pos {σ : ℚ} {v : Volume} (hσ0 : 0 ≤ σ) (hσv : σ * σ = varQ v)
    (hvar : 0 < varQ v) : 0 < σ := by
  rcases lt_or_eq_of_le hσ0 with h | h
  · exact h
  · exfalso
    rw [← h, mul_zero] at hσv
    linarith

/-- The mean of a volume all of whose samples equal `c` is `c`. -/
lemma meanQ_const {v : Volume} {c : ℚ} (hne : v.flatten ≠ [])
    (hall : ∀ x ∈ v.flatten, x = c) : meanQ v = c := by
  have hlen : (v.flatten.length : ℚ) ≠ 0 := by
    have hpos : 0 < v.flatten.length := List.length_pos.mpr hne
    exact ne_of_gt (by exact_mod_cast hpos)
  have hsum : v.flatten.sum = v.flatten.length • c :=
    List.sum_eq_card_nsmul _ c hall
  rw [meanQ, hsum, nsmul_eq_mul, mul_comm, mul_div_assoc, div_self hlen,
    mul_one]

/-- The variance of a volume all of whose samples equal `c` is `0`. -/
lemma varQ_const {v : Volume} {c : ℚ} (hne : v.flatten ≠ [])
    (hall : ∀ x ∈ v.flatten, x = c) : varQ v = 0 := by
  rw [varQ, List.sum_eq_zero, zero_div]
  intro y hy
  obtain ⟨x, hx, rfl⟩ := List.mem_map.mp hy
  rw [hall x hx, meanQ_const hne hall, sub_self]
  ring

/-- A volume with positive variance contains two samples in strict order. -/
lemma exists_lt_of_var_pos {v : Volume} (h : 0 < varQ v) :
    ∃ a ∈ v.flatten, ∃ b ∈ v.flatten, a < b := by
  by_contra hc
  push_neg at hc
  have hall : ∀ x ∈ v.flatten, ∀ y ∈ v.flatten, x = y :=
    fun x hx y hy => le_antisymm (hc y hy x hx) (hc x hx y hy)
  obtain ⟨c, hc0⟩ := List.exists_mem_of_ne_nil _ (flatten_ne_nil_of_var_pos h)
  have hvz : varQ v = 0 :=
    varQ_const (flatten_ne_nil_of_var_pos h) (fun x hx => hall x hx c hc0)
  linarith

lemma zData_flatten (σ : ℚ) (v : Volume) :
    (zData σ v).flatten = v.flatten.map (zOf σ v) :=
  flatten_map_map _ v

lemma vmin_zData (σ : ℚ) (v : Volume) :
    vmin (zData σ v).flatten = zminOf σ v := by
  rw [zData_flatten]
  rfl

lemma shiftData_flatten (σ : ℚ) (v : Volume) :
    (shiftData σ v).flatten =
      (v.flatten.map (zOf σ v)).map (fun x => x - zminOf σ v) := by
  unfold shiftData
  rw [vmin_zData, flatten_map_map, zData_flatten]

lemma vmax_shiftData (σ : ℚ) (v : Volume) (hne : v.flatten ≠ []) :
    vmax (shiftData σ v).flatten = zmaxOf σ v - zminOf σ v := by
  rw [shiftData_flatten, vmax_map_sub _ _ (by simpa using hne)]
  rfl

/-- The four staged whole-array operations of lines 166-169 compute, for each
voxel, the single fused per-sample map `normPoint`. -/
lemma mrcNormalize_eq_map (σ : ℚ) (v : Volume) (hne : v.flatten ≠ []) :
    mrcNormalize σ v = v.map (fun s => s.map (normPoint σ v)) := by
  unfold mrcNormalize scaleData
  rw [vmax_shiftData σ v hne]
  unfold shiftData
  rw [vmin_zData]
  unfold zData
  simp only [List.map_map, Function.comp_def]
  rfl

lemma zgap_pos {σ : ℚ} {v : Volume} (hσ : 0 < σ) (hvar : 0 < varQ v) :
    0 < zmaxOf σ v - zminOf σ v := by
  obtain ⟨a, ha, b, hb, hab⟩ := exists_lt_of_var_pos hvar
  have hz : zOf σ v a < zOf σ v b := by
    unfold zOf
    rw [div_lt_div_iff₀ hσ hσ]
    nlinarith
  have h1 : zminOf σ v ≤ zOf σ v a :=
    vmin_le_of_mem (List.mem_map_of_mem _ ha)
  have h2 : zOf σ v b ≤ zmaxOf σ v :=
    le_vmax_of_mem (List.mem_map_of_mem _ hb)
  linarith

/-- Per-sample characterization of the normalization in the non-degenerate
regime: closed form as a floor, equality with the spec's
`trunc(255 * ((z - min z)/(max z - min z)))`, and the 8-bit range. -/
lemma normPoint_spec (σ : ℚ) (v : Volume) (_hσ : 0 < σ)
    (hM : 0 < zmaxOf σ v - zminOf σ v) {x : ℚ} (hx : x ∈ v.flatten) :
    normPoint σ v x =
        ⌊(zOf σ v x - zminOf σ v) / (zmaxOf σ v - zminOf σ v) * 255⌋ ∧
      normPoint σ v x =
        truncQ (255 * ((zOf σ v x - zminOf σ v) / (zmaxOf σ v - zminOf σ v))) ∧
      0 ≤ normPoint σ v x ∧ normPoint σ v x ≤ 255 := by
  have hzmem : zOf σ v x ∈ v.flatten.map (zOf σ v) := List.mem_map_of_mem _ hx
  have h1 : zminOf σ v ≤ zOf σ v x := vmin_le_of_mem hzmem
  have h2 : zOf σ v x ≤ zmaxOf σ v := le_vmax_of_mem hzmem
  set r := (zOf σ v x - zminOf σ v) / (zmaxOf σ v - zminOf σ v) with hr
  have hr0 : 0 ≤ r := div_nonneg (by linarith) (le_of_lt hM)
  have hr1 : r ≤ 1 := (div_le_one hM).mpr (by linarith)
  have hv0 : 0 ≤ r * 255 := mul_nonneg hr0 (by norm_num)
  have hv255 : r * 255 ≤ 255 := by nlinarith
  have hfl0 : (0 : ℤ) ≤ ⌊r * 255⌋ := Int.le_floor.mpr (by exact_mod_cast hv0)
  have hfl255 : ⌊r * 255⌋ ≤ 255 := by
    have hq : ((⌊r * 255⌋ : ℚ)) ≤ 255 := le_trans (Int.floor_le _) hv255
    exact_mod_cast hq
  have heq : normPoint σ v x = ⌊r * 255⌋ := by
    unfold normPoint astypeUint8 truncQ
    rw [← hr, if_pos hv0, Int.emod_eq_of_lt hfl0 (by omega)]
  have heq2 : normPoint σ v x = truncQ (255 * r) := by
    unfold truncQ
    rw [if_pos (by linarith), mul_comm]
    exact heq
  exact ⟨heq, heq2, heq ▸ hfl0, heq ▸ hfl255⟩

lemma map_map_congr {α β : Type} (v : List (List α)) (f g : α → β)
    (h : ∀ x ∈ v.flatten, f x = g x) :
    v.map (fun s => s.map f) = v.map (fun s => s.map g) := by
  induction v with
  | nil => rfl
  | cons s t ih =>
    simp only [List.map_cons]
    rw [List.map_congr_left (fun x hx => h x (List.mem_append_left _ hx)),
      ih (fun x hx => h x (List.mem_append_right _ hx))]

/-- C5: in the non-degenerate regime (positive variance, hence `σ > 0` and a
positive post-shift maximum), the pack normalization maps every sample `x` to
`trunc(255 * ((z - min z) / (max z - min z)))` with `z = (x - μ)/σ`, where
`μ`, `σ`, `min z` and `max z` are computed once over the entire volume, and
every output sample lies in [0, 255]. -/
theorem c5_normalization_formula (σ : ℚ) (v : Volume)
    (hσ0 : 0 ≤ σ) (hσv : σ * σ = varQ v) (hvar : 0 < varQ v) :
    mrcNormalize σ v =
      v.map (fun s => s.map (fun x =>
        truncQ (255 * ((zOf σ v x - zminOf σ v) /
          (zmaxOf σ v - zminOf σ v))))) ∧
      ∀ t ∈ (mrcNormalize σ v).flatten, 0 ≤ t ∧ t ≤ 255 := by
  have hne := flatten_ne_nil_of_var_pos hvar
  have hσ : 0 < σ := sigma_pos hσ0 hσv hvar
  have hM : 0 < zmaxOf σ v - zminOf σ v := zgap_pos hσ hvar
  rw [mrcNormalize_eq_map σ v hne]
  constructor
  · exact map_map_congr v _ _
      (fun x hx => (normPoint_spec σ v hσ hM hx).2.1)
  · intro t ht
    rw [flatten_map_map] at ht
    obtain ⟨x, hx, rfl⟩ := List.mem_map.mp ht
    exact ⟨(normPoint_spec σ v hσ hM hx).2.2.1,
      (normPoint_spec σ v hσ hM hx).2.2.2⟩

/-- A concrete volume with variance exactly 1 (so `σ = 1` is rational). -/
def vol5 : Volume := [[0, 2], [0, 2]]

/-- Witness for C5 at `vol5` with `σ = 1`. -/
theorem c5_normalization_formula_witness :
    (0 : ℚ) ≤ 1 ∧ (1 : ℚ) * 1 = varQ vol5 ∧ 0 < varQ vol5 ∧
      (mrcNormalize 1 vol5 =
        vol5.map (fun s => s.map (fun x =>
          truncQ (255 * ((zOf 1 vol5 x - zminOf 1 vol5) /
            (zmaxOf 1 vol5 - zminOf 1 vol5))))) ∧
        ∀ t ∈ (mrcNormalize 1 vol5).flatten, 0 ≤ t ∧ t ≤ 255) :=
  ⟨by norm_num, by norm_num [varQ, meanQ, vol5], by norm_num [varQ, meanQ, vol5],
    c5_normalization_formula 1 vol5 (by norm_num)
      (by norm_num [varQ, meanQ, vol5]) (by norm_num [varQ, meanQ, vol5])⟩

/-- C8: the normalization is one volume-global monotone per-sample map. For
any two voxels `x ≤ y` of a positive-variance volume — in particular voxels
taken from different slices with different local min/max — the packed
intensities satisfy `normPoint x ≤ normPoint y`, and `mrcNormalize` is
exactly the slice-wise application of that single global map (never a
per-slice one). Quantization makes the map non-injective, so order is
preserved in the non-strict sense. -/
theorem c8_global_monotone (σ : ℚ) (v : Volume) (x y : ℚ)
    (hσ0 : 0 ≤ σ) (hσv : σ * σ = varQ v) (hvar : 0 < varQ v)
    (hx : x ∈ v.flatten) (hy : y ∈ v.flatten) (hxy : x ≤ y) :
    mrcNormalize σ v = v.map (fun s => s.map (normPoint σ v)) ∧
      normPoint σ v x ≤ normPoint σ v y := by
  have hne := flatten_ne_nil_of_var_pos hvar
  have hσ : 0 < σ := sigma_pos hσ0 hσv hvar
  have hM : 0 < zmaxOf σ v - zminOf σ v := zgap_pos hσ hvar
  refine ⟨mrcNormalize_eq_map σ v hne, ?_⟩
  rw [(normPoint_spec σ v hσ hM hx).1, (normPoint_spec σ v hσ hM hy).1]
  apply Int.floor_le_floor
  have hz : zOf σ v x ≤ zOf σ v y := by
    unfold zOf
    rw [div_le_div_iff_of_pos_right hσ]
    linarith
  have hdiv : (zOf σ v x - zminOf σ v) / (zmaxOf σ v - zminOf σ v) ≤
      (zOf σ v y - zminOf σ v) / (zmaxOf σ v - zminOf σ v) := by
    rw [div_le_div_iff_of_pos_right hM]
    linarith
  nlinarith

/-- A concrete volume whose two slices have different local min/max
({0} and {2}) and whose variance is exactly 1. -/
def vol8 : Volume := [[0, 0], [2, 2]]

/-- Witness for C8: voxel 0 from slice 0 and voxel 2 from slice 1. -/
theorem c8_global_monotone_witness :
    (0 : ℚ) ≤ 1 ∧ (1 : ℚ) * 1 = varQ vol8 ∧ 0 < varQ vol8 ∧
      (0 : ℚ) ∈ vol8.flatten ∧ (2 : ℚ) ∈ vol8.flatten ∧ (0 : ℚ) ≤ 2 ∧
      (mrcNormalize 1 vol8 = vol8.map (fun s => s.map (normPoint 1 vol8)) ∧
        normPoint 1 vol8 0 ≤ normPoint 1 vol8 2) :=
  ⟨by norm_num, by norm_num [varQ, meanQ, vol8], by norm_num [varQ, meanQ, vol8],
    by norm_num [vol8], by norm_num [vol8], by norm_num,
    c8_global_monotone 1 vol8 0 2 (by norm_num)
      (by norm_num [varQ, meanQ, vol8]) (by norm_num [varQ, meanQ, vol8])
      (by norm_num [vol8]) (by norm_num [vol8]) (by norm_num)⟩

/-- An IEEE-style float value for the degenerate-statistics analysis: a
finite rational, NaN, +Inf or -Inf. Finite zeros are modelled as +0 only
(the sign of zero never matters on the analysed path). -/
inductive FV : Type where
  | fin (q : ℚ) : FV
  | nan : FV
  | pinf : FV
  | ninf : FV
deriving DecidableEq

namespace FV

/-- IEEE addition. -/
def add : FV → FV → FV
  | fin a, fin b => fin (a + b)
  | fin _, pinf => pinf
  | fin _, ninf => ninf
  | fin _, nan => nan
  | pinf, fin _ => pinf
  | pinf, pinf => pinf
  | pinf, ninf => nan
  | pinf, nan => nan
  | ninf, fin _ => ninf
  | ninf, pinf => nan
  | ninf, ninf => ninf
  | ninf, nan => nan
  | nan, _ => nan

/-- IEEE subtraction. -/
def sub : FV → FV → FV
  | fin a, fin b => fin (a - b)
  | fin _, pinf => ninf
  | fin _, ninf => pinf
  | fin _, nan => nan
  | pinf, fin _ => pinf
  | pinf, pinf => nan
  | pinf, ninf => pinf
  | pinf, nan => nan
  | ninf, fin _ => ninf
  | ninf, pinf => ninf
  | ninf, ninf => nan
  | ninf, nan => nan
  | nan, _ => nan

/-- IEEE multiplication. -/
def mul : FV → FV → FV
  | fin a, fin b => fin (a * b)
  | fin a, pinf => if a = 0 then nan else if 0 < a then pinf else ninf
  | fin a, ninf => if a = 0 then nan else if 0 < a then ninf else pinf
  | fin _, nan => nan
  | pinf, fin b => if b = 0 then nan else if 0 < b then pinf else ninf
  | pinf, pinf => pinf
  | pinf, ninf => ninf
  | pinf, nan => nan
  | ninf, fin b => if b = 0 then nan else if 0 < b then ninf else pinf
  | ninf, pinf => ninf
  | ninf, ninf => pinf
  | ninf, nan => nan
  | nan, _ => nan

/-- IEEE division, with zero modelled as +0: `0/0 = NaN`, `±x/0 = ±Inf`. -/
def div : FV → FV → FV
  | fin a, fin b =>
    if b = 0 then (if a = 0 then nan else if 0 < a then pinf else ninf)
    else fin (a / b)
  | fin _, pinf => fin 0
  | fin _, ninf => fin 0
  | fin _, nan => nan
  | pinf, fin b => if 0 ≤ b then pinf else ninf
  | pinf, pinf => nan
  | pinf, ninf => nan
  | pinf, nan => nan
  | ninf, fin b => if 0 ≤ b then ninf else pinf
  | ninf, pinf => nan
  | ninf, ninf => nan
  | ninf, nan => nan
  | nan, _ => nan

/-- NaN-propagating minimum, as used by `np.min`'s pairwise reduction. -/
def fmin : FV → FV → FV
  | nan, _ => nan
  | _, nan => nan
  | fin a, fin b => fin (min a b)
  | fin a, pinf => fin a
  | fin _, ninf => ninf
  | pinf, fin b => fin b
  | pinf, pinf => pinf
  | pinf, ninf => ninf
  | ninf, _ => ninf

/-- NaN-propagating maximum, as used by `np.max`'s pairwise reduction. -/
def fmax : FV → FV → FV
  | nan, _ => nan
  | _, nan => nan
  | fin a, fin b => fin (max a b)
  | fin _, pinf => pinf
  | fin a, ninf => fin a
  | pinf, _ => pinf
  | ninf, fin b => fin b
  | ninf, pinf => pinf
  | ninf, ninf => ninf

end FV

/-- `np.sum` over float values. -/
def sumFV (l : List FV) : FV := l.foldl FV.add (FV.fin 0)

/-- `np.min` of a flattened nonempty float array (`nan` marks the empty
case, where numpy raises; never reached). -/
def vminFV : List FV → FV
  | [] => FV.nan
  | x :: xs => xs.foldl FV.fmin x

/-- `np.max` of a flattened nonempty float array. -/
def vmaxFV : List FV → FV
  | [] => FV.nan
  | x :: xs => xs.foldl FV.fmax x

/-- The volume samples as float values (line 163, `astype(np.float32)`). -/
def toFVData (v : Volume) : List (List FV) := v.map (fun s => s.map FV.fin)

/-- `np.mean(data)` in float arithmetic (line 164). -/
def meanFV (v : Volume) : FV :=
  FV.div (sumFV (toFVData v).flatten) (FV.fin ((v.flatten.length : ℚ)))

/-- Line 166 in float arithmetic, `data = (data - mean) / std`, with the
std value passed as `σ` (for a zero-variance volume `np.std` is exactly
`sqrt(0.0) = 0.0`). -/
def zDataFV (σ : FV) (v : Volume) : List (List FV) :=
  (toFVData v).map (fun s => s.map (fun x => FV.div (FV.sub x (meanFV v)) σ))

/-- Line 167 in float arithmetic, `data = data - np.min(data)`. -/
def shiftDataFV (σ : FV) (v : Volume) : List (List FV) :=
  (zDataFV σ v).map (fun s => s.map (fun x =>
    FV.sub x (vminFV (zDataFV σ v).flatten)))

/-- Line 168 in float arithmetic, `data = data / np.max(data)`. -/
def scaleDataFV (σ : FV) (v : Volume) : List (List FV) :=
  (shiftDataFV σ v).map (fun s => s.map (fun x =>
    FV.div x (vmaxFV (shiftDataFV σ v).flatten)))

/-- Lines 163-169 of `mrc_to_jpeg_stack` in float arithmetic, stopping just
before the `astype(np.uint8)` cast (the float→uint8 cast of NaN is
platform-defined garbage; everything before it is exact IEEE behavior).
The function is total: the Python code contains no check and raises no
error on this path. -/
def mrcNormalizePreCast (σ : FV) (v : Volume) : List (List FV) :=
  (scaleDataFV σ v).map (fun s => s.map (fun x => FV.mul x (FV.fin 255)))

lemma sumFV_foldl_fin (l : List ℚ) :
    ∀ a : ℚ, (l.map FV.fin).foldl FV.add (FV.fin a) = FV.fin (a + l.sum) := by
  induction l with
  | nil => intro a; simp [List.foldl]
  | cons x t ih =>
    intro a
    simp only [List.map_cons, List.foldl_cons, FV.add]
    rw [ih (a + x)]
    rw [List.sum_cons]
    ring_nf

lemma sumFV_map_fin (l : List ℚ) : sumFV (l.map FV.fin) = FV.fin l.sum := by
  rw [sumFV, sumFV_foldl_fin, zero_add]

lemma toFVData_flatten (v : Volume) :
    (toFVData v).flatten = v.flatten.map FV.fin :=
  flatten_map_map _ v

/-- For a nonempty volume the float mean is the finite rational mean. -/
lemma meanFV_eq (v : Volume) (hne : v.flatten ≠ []) :
    meanFV v = FV.fin (meanQ v) := by
  have hlen : ((v.flatten.length : ℚ)) ≠ 0 := by
    have hpos : 0 < v.flatten.length := List.length_pos.mpr hne
    exact ne_of_gt (by exact_mod_cast hpos)
  rw [meanFV, toFVData_flatten, sumFV_map_fin, FV.div, if_neg hlen]
  rfl

lemma foldl_fmin_nan (xs : List FV) : xs.foldl FV.fmin FV.nan = FV.nan := by
  induction xs with
  | nil => rfl
  | cons b t ih => simpa [FV.fmin] using ih

lemma foldl_fmax_nan (xs : List FV) : xs.foldl FV.fmax FV.nan = FV.nan := by
  induction xs with
  | nil => rfl
  | cons b t ih => simpa [FV.fmax] using ih

lemma vminFV_all_nan {l : List FV} (hne : l ≠ [])
    (hall : ∀ x ∈ l, x = FV.nan) : vminFV l = FV.nan := by
  cases l with
  | nil => exact absurd rfl hne
  | cons x xs =>
    rw [vminFV, hall x (List.mem_cons_self x xs), foldl_fmin_nan]

lemma vmaxFV_all_nan {l : List FV} (hne : l ≠ [])
    (hall : ∀ x ∈ l, x = FV.nan) : vmaxFV l = FV.nan := by
  cases l with
  | nil => exact absurd rfl hne
  | cons x xs =>
    rw [vmaxFV, hall x (List.mem_cons_self x xs), foldl_fmax_nan]

/-- On an all-equal volume the z-score stage computes `0.0 / 0.0 = NaN` for
every voxel. -/
lemma zDataFV_const {v : Volume} {c : ℚ} (hne : v.flatten ≠ [])
    (hall : ∀ x ∈ v.flatten, x = c) :
    zDataFV (FV.fin 0) v = v.map (fun s => s.map (fun _ => FV.nan)) := by
  unfold zDataFV toFVData
  rw [meanFV_eq v hne]
  simp only [List.map_map, Function.comp_def]
  apply map_map_congr
  intro x hx
  rw [hall x hx, meanQ_const hne hall]
  simp [FV.sub, FV.div]

/-- The flattened all-NaN grid is nonempty and all-NaN. -/
lemma flatten_const_nan {v : Volume} (hne : v.flatten ≠ []) :
    (v.map (fun s => s.map (fun _ : ℚ => FV.nan))).flatten ≠ [] ∧
      ∀ x ∈ (v.map (fun s => s.map (fun _ : ℚ => FV.nan))).flatten,
        x = FV.nan := by
  rw [flatten_map_map]
  constructor
  · simpa using hne
  · intro x hx
    obtain ⟨y, _, rfl⟩ := List.mem_map.mp hx
    rfl

/-- C1 (what the code actually does on a degenerate volume): for any volume
whose samples are all equal, the variance is exactly 0 — so `np.std` is
exactly `sqrt(0.0) = 0.0` — and the pack normalization divides by zero:
every voxel becomes `0.0/0.0 = NaN` at the z-score stage and stays NaN
through the shift, scale and `* 255` stages. No error of any kind is
signalled (the embedded pipeline is total, mirroring lines 162-169, which
contain no degeneracy check), contradicting the claim that the pack fails
with a specific degenerate-statistics error. -/
theorem c1_zero_variance_nan (v : Volume) (c : ℚ) (hne : v.flatten ≠ [])
    (hall : ∀ x ∈ v.flatten, x = c) :
    varQ v = 0 ∧
      mrcNormalizePreCast (FV.fin 0) v =
        v.map (fun s => s.map (fun _ => FV.nan)) := by
  refine ⟨varQ_const hne hall, ?_⟩
  obtain ⟨hfne, hfall⟩ := flatten_const_nan hne
  have hshift : shiftDataFV (FV.fin 0) v =
      v.map (fun s => s.map (fun _ => FV.nan)) := by
    unfold shiftDataFV
    rw [zDataFV_const hne hall, vminFV_all_nan hfne hfall]
    simp only [List.map_map, Function.comp_def]
    apply map_map_congr
    intro x _
    rfl
  have hscale : scaleDataFV (FV.fin 0) v =
      v.map (fun s => s.map (fun _ => FV.nan)) := by
    unfold scaleDataFV
    rw [hshift, vmaxFV_all_nan hfne hfall]
    simp only [List.map_map, Function.comp_def]
    apply map_map_congr
    intro x _
    rfl
  unfold mrcNormalizePreCast
  rw [hscale]
  simp only [List.map_map, Function.comp_def]
  apply map_map_congr
  intro x _
  rfl

/-- Witness for C1: the concrete all-equal volume `[[5,5],[5,5]]` (σ = 0). -/
theorem c1_zero_variance_nan_witness :
    (([[5, 5], [5, 5]] : Volume).flatten ≠ [] ∧
        ∀ x ∈ ([[5, 5], [5, 5]] : Volume).flatten, x = 5) ∧
      varQ [[5, 5], [5, 5]] = 0 ∧
      mrcNormalizePreCast (FV.fin 0) [[5, 5], [5, 5]] =
        ([[5, 5], [5, 5]] : Volume).map (fun s => s.map (fun _ => FV.nan)) :=
  ⟨⟨by simp, by norm_num⟩,
    c1_zero_variance_nan [[5, 5], [5, 5]] 5 (by simp) (by norm_num)⟩

/-- `data - 128` on one sample of a uint8 numpy array (line 273):
uint8 arithmetic wraps modulo 2^8, and `-128 ≡ 128 (mod 256)`, so the
elementwise result is `(u + 128) % 256`. -/
def uint8Sub128 (u : ℕ) : ℕ := (u + 128) % 256

/-- `astype(np.int8)` of one uint8 sample: value conversion modulo 2^8 into
the signed range [-128, 128). -/
def astypeInt8 (b : ℕ) : ℤ :=
  if b % 256 < 128 then (b % 256 : ℤ) else (b % 256 : ℤ) - 256

/-- Line 273, `mrc.set_data((data - 128).astype(np.int8))`: the decoded
unsigned-8-bit slice grids mapped elementwise, with no other transformation
(no attempt to invert the pack's mean/std/min/max rescaling). -/
def unpackSamples (grids : List (List ℕ)) : List (List ℤ) :=
  grids.map (fun g => g.map (fun u => astypeInt8 (uint8Sub128 u)))

/-- The uint8 wraparound and the int8 conversion cancel: for a genuine byte
the composite is exactly subtraction by 128. -/
lemma unpackPoint (u : ℕ) (hu : u < 256) :
    astypeInt8 (uint8Sub128 u) = (u : ℤ) - 128 := by
  simp only [astypeInt8, uint8Sub128]
  split <;> omega

/-- C7: for every sequence of decoded unsigned 8-bit slice grids, the unpack
operation produces a signed volume in which every voxel equals the unsigned
sample minus 128, each output value lying in [-128, 127]. -/
theorem c7_unpack_sub128 (grids : List (List ℕ))
    (hu : ∀ u ∈ grids.flatten, u < 256) :
    unpackSamples grids =
        grids.map (fun g => g.map (fun u : ℕ => (u : ℤ) - 128)) ∧
      ∀ s ∈ (unpackSamples grids).flatten, -128 ≤ s ∧ s ≤ 127 := by
  have heq : unpackSamples grids =
      grids.map (fun g => g.map (fun u : ℕ => (u : ℤ) - 128)) :=
    map_map_congr _ _ _ (fun u huu => unpackPoint u (hu u huu))
  refine ⟨heq, ?_⟩
  rw [heq, flatten_map_map]
  intro s hs
  obtain ⟨u, hu2, rfl⟩ := List.mem_map.mp hs
  have := hu u hu2
  omega

/-- Witness for C7 at a concrete pair of decoded grids. -/
theorem c7_unpack_sub128_witness :
    (∀ u ∈ ([[0, 255], [128, 7]] : List (List ℕ)).flatten, u < 256) ∧
      (unpackSamples [[0, 255], [128, 7]] =
        ([[0, 255], [128, 7]] : List (List ℕ)).map
          (fun g => g.map (fun u : ℕ => (u : ℤ) - 128)) ∧
      ∀ s ∈ (unpackSamples [[0, 255], [128, 7]]).flatten,
        -128 ≤ s ∧ s ≤ 127) :=
  ⟨by decide, c7_unpack_sub128 [[0, 255], [128, 7]] (by decide)⟩

/-- `list(pool.imap(f, args))` as used by the batch driver (`main`,
lines 386-387 for pack, 401-402 for unpack): results are retrieved in
submission order; when a job raised, `imap.__next__` re-raises that
exception in the parent at the job's position, which aborts the `list(...)`
collection — results gathered before the failure are discarded, no later
result is retrieved, and leaving the `with Pool` block terminates the
workers. Each list element is the outcome of one conversion job. -/
def collectImap {E A : Type} : List (Except E A) → Except E (List A)
  | [] => Except.ok []
  | Except.ok a :: rest => (collectImap rest).map (fun l => a :: l)
  | Except.error e :: _ => Except.error e

/-- Whether the batch driver's collected output reports the result `a` of
some job. -/
def reportsResult {E A : Type} [DecidableEq A] (o : Except E (List A))
    (a : A) : Bool :=
  match o with
  | Except.ok l => decide (a ∈ l)
  | Except.error _ => false

/-- C9 counterexample: a batch of three jobs whose second job fails. The
claim says the failure is reported for that job alone and sibling results
are still reported; instead the driver's collection is the bare exception of
the failed job — neither the already-computed result of job 1 nor the
result of job 3 is reported to the caller. -/
theorem c9_counterexample :
    collectImap ([Except.ok 1, Except.error "job 2 failed", Except.ok 2] :
        List (Except String ℕ)) = Except.error "job 2 failed" ∧
      reportsResult (collectImap
        ([Except.ok 1, Except.error "job 2 failed", Except.ok 2] :
          List (Except String ℕ))) 1 = false ∧
      reportsResult (collectImap
        ([Except.ok 1, Except.error "job 2 failed", Except.ok 2] :
          List (Except String ℕ))) 2 = false :=
  ⟨rfl, rfl, rfl⟩

/-- C9 (amended): when a batch contains a failing job, the batch driver does
surface that job's error to the caller — the first failure propagates out of
the result collection — but it reports no sibling results at all: collection
aborts at the first failed job, whatever ran before or after it. -/
theorem c9_first_error_aborts (pre post : List (Except String ℕ)) (e : String)
    (hpre : ∀ x ∈ pre, ∃ a, x = Except.ok a) :
    collectImap (pre ++ Except.error e :: post) = Except.error e := by
  induction pre with
  | nil => rfl
  | cons x t ih =>
    obtain ⟨a, rfl⟩ := hpre x (List.mem_cons_self x t)
    simp only [List.cons_append, collectImap, List.append_eq]
    rw [ih (fun y hy => hpre y (List.mem_cons_of_mem _ hy))]
    rfl

/-- Witness for C9's amended statement. -/
theorem c9_first_error_aborts_witness :
    (∀ x ∈ ([Except.ok 1] : List (Except String ℕ)), ∃ a, x = Except.ok a) ∧
      collectImap (([Except.ok 1] : List (Except String ℕ)) ++
        Except.error "boom" :: [Except.ok 2]) = Except.error "boom" :=
  ⟨fun x hx => ⟨1, by simpa using hx⟩,
    c9_first_error_aborts [Except.ok 1] [Except.ok 2] "boom"
      (fun x hx => ⟨1, by simpa using hx⟩)⟩

/-- Python `str.rfind(ch)`: the index of the last occurrence, or `-1`. -/
def pyRfindChar (c : Char) (s : List Char) : Int :=
  match (s.reverse).findIdx? (fun x => x == c) with
  | some j => (s.length : Int) - 1 - (j : Int)
  | none => -1

/-- `os.path.splitext(p)[0]` (posixpath algorithm): split at the last dot
when it comes after the last slash and the base name has a non-dot
character before it; otherwise return `p` whole. -/
def splitextRoot (p : List Char) : List Char :=
  let sepIndex := pyRfindChar '/' p
  let dotIndex := pyRfindChar '.' p
  if sepIndex < dotIndex then
    if ((p.drop (sepIndex + 1).toNat).take
        (dotIndex - (sepIndex + 1)).toNat).any (fun ch => ch != '.') then
      p.take dotIndex.toNat
    else p
  else p

/-- The start index of the last occurrence of `pat` as a substring of `s`,
if any. -/
def lastSubstrStart (pat s : List Char) : Option ℕ :=
  (List.range (s.length + 1)).foldl
    (fun acc i => if (s.drop i).take pat.length = pat then some i else acc)
    none

/-- Python `s.rsplit(pat, 1)[0]`: everything before the last occurrence of
`pat`, or all of `s` when `pat` does not occur. -/
def rsplitBefore (pat s : List Char) : List Char :=
  match lastSubstrStart pat s with
  | some i => s.take i
  | none => s

/-- The fixed sidecar suffix `_header.npy` of the glob pattern at line 222. -/
def headerSuffix : List Char := ['_', 'h', 'e', 'a', 'd', 'e', 'r', '.', 'n', 'p', 'y']

/-- The separator `_JPG` used at line 228 to recover the original stem. -/
def strJPG : List Char := ['_', 'J', 'P', 'G']

/-- The output extension `.mrc`. -/
def dotMrc : List Char := ['.', 'm', 'r', 'c']

/-- Whether `name` matches the glob pattern `{base}*_header.npy`
(`*` matches any run of characters other than the path separator). -/
def matchesHeaderPattern (base name : List Char) : Bool :=
  decide (name.take base.length = base) &&
  decide (base.length + headerSuffix.length ≤ name.length) &&
  decide (name.drop (name.length - headerSuffix.length) = headerSuffix) &&
  ((name.drop base.length).take
    (name.length - headerSuffix.length - base.length)).all (fun ch => ch != '/')

/-- Lines 220-232 of `jpeg_stack_to_mrc`: derivation of the path that is
written to and returned. The `mrc_filename` argument is received but then
unconditionally reassigned: when a sidecar matching
`{splitext(jpeg_stack_filename)[0]}*_header.npy` exists in the directory
listing consulted by `Path('.').glob`, the output is everything before the
last `_JPG` in the first matching sidecar's name plus `.mrc`; otherwise it
is the input's splitext root plus `.mrc`. `fsListing` is that directory
listing, in the order the glob yields it. -/
def jpegStackToMrcOutPath (fsListing : List (List Char))
    (jpegStackFilename : List Char) (_mrcFilename : List Char) : List Char :=
  let baseName := splitextRoot jpegStackFilename
  match fsListing.filter (fun name => matchesHeaderPattern baseName name) with
  | headerFile :: _ => rsplitBefore strJPG headerFile ++ dotMrc
  | [] => baseName ++ dotMrc

/-- C10: the output path of unpack does not depend on the `mrc_filename`
argument. Two calls that agree on the input stack filename and on the
filesystem state (the glob listing) produce the same output path, whatever
`mrc_filename` arguments they receive, and that path is rederived from the
first matching header-sidecar filename when one exists, or from the input
stack's splitext base name plus `.mrc` otherwise. -/
theorem c10_outpath_independent (fs : List (List Char))
    (jpeg m₁ m₂ : List Char) :
    jpegStackToMrcOutPath fs jpeg m₁ = jpegStackToMrcOutPath fs jpeg m₂ ∧
      jpegStackToMrcOutPath fs jpeg m₁ =
        (match fs.filter (fun name =>
            matchesHeaderPattern (splitextRoot jpeg) name) with
          | headerFile :: _ => rsplitBefore strJPG headerFile ++ dotMrc
          | [] => splitextRoot jpeg ++ dotMrc) :=
  ⟨rfl, rfl⟩

end JpegTomogram
